import Mathlib

/-!
Verification of the HTTP/2 fingerprinting transport (`fetch/http2` package).

This development shallowly embeds the header-ordering pipeline
(`headerSorter.Less`, `sortedKeyValues`, `sortedKeyValuesBy`, the
`enumerateHeaders` closure of `ClientConn.encodeHeaders`), the
settings-validation and connection-setup phase of `Transport.newClientConn`,
the retry loop of `Transport.roundTrip` and the response/abort race of
`ClientConn.RoundTrip`, and proves or refutes the specification claims
about them.

Modelling conventions:
* Go strings are Lean `String`s; Go's byte-wise lexicographic `<` on UTF-8
  strings coincides with the code-point lexicographic order used here,
  because UTF-8 is order-preserving.
* Go maps (`http.Header`) are association lists whose order models the
  (arbitrary) map-iteration order; map semantics are recovered through
  pairwise-distinct-key hypotheses.
* `sort.Sort` with `headerSorter.Less` is modelled by the stable
  left-to-right insertion sort that Go's `sort.Sort` performs on small
  slices (`insertionSort` in Go's sort package): each later element is
  inserted after every element it does not compare strictly below.
* Machine integers are `Nat`/`Int` with explicit wrap-around where Go
  truncates (`int32(uint32 expression)`).
-/

namespace SkiH2

/-! ### ASCII / string helpers (Go `strings.ToLower`, `asciiEqualFold`)

`strings.ToLower` is modelled on its ASCII fragment (header names are
ASCII; the claims only exercise ASCII inputs). `asciiEqualFold` is the
x/net helper comparing two strings byte-wise after ASCII lower-casing. -/

def charLower (c : Char) : Char :=
  if 'A' ≤ c ∧ c ≤ 'Z' then Char.ofNat (c.toNat + 32) else c

def strLower (s : String) : String :=
  String.mk (s.toList.map charLower)

def asciiEqualFold (s t : String) : Bool :=
  decide (s.toList.map charLower = t.toList.map charLower)

/-- Go string `<`: byte-wise lexicographic comparison.  On UTF-8 encoded
strings the byte order equals the code-point order used here, because
UTF-8 is order-preserving. -/
def charListLess : List Char → List Char → Bool
  | [], [] => false
  | [], _ :: _ => true
  | _ :: _, [] => false
  | a :: as, b :: bs =>
    if a.toNat < b.toNat then true
    else if b.toNat < a.toNat then false
    else charListLess as bs

def strLess (a b : String) : Bool := charListLess a.toList b.toList

theorem charListLess_trans :
    ∀ a b c : List Char, charListLess a b = true → charListLess b c = true →
      charListLess a c = true := by
  intro a
  induction a with
  | nil =>
    intro b c hab hbc
    cases b with
    | nil => simp [charListLess] at hab
    | cons y ys =>
      cases c with
      | nil => simp [charListLess] at hbc
      | cons z zs => simp [charListLess]
  | cons x xs ih =>
    intro b c hab hbc
    cases b with
    | nil => simp [charListLess] at hab
    | cons y ys =>
      cases c with
      | nil => simp [charListLess] at hbc
      | cons z zs =>
        simp only [charListLess] at hab hbc ⊢
        by_cases h1 : x.toNat < y.toNat <;> by_cases h2 : y.toNat < z.toNat <;>
          simp_all
        · exact Or.inl (by omega)
        · exact Or.inl (by omega)
        · exact Or.inl (by omega)
        · exact Or.inr ⟨by omega, ih ys zs hab.2 hbc.2⟩

theorem charListLess_asym :
    ∀ a b : List Char, charListLess a b = true → charListLess b a = false := by
  intro a
  induction a with
  | nil =>
    intro b hab
    cases b with
    | nil => simp [charListLess] at hab
    | cons y ys => simp [charListLess]
  | cons x xs ih =>
    intro b hab
    cases b with
    | nil => simp [charListLess] at hab
    | cons y ys =>
      simp only [charListLess] at hab ⊢
      by_cases h1 : x.toNat < y.toNat <;> simp_all
      omega

theorem charListLess_eq_of_not :
    ∀ a b : List Char, charListLess a b = false → charListLess b a = false →
      a = b := by
  intro a
  induction a with
  | nil =>
    intro b h1 h2
    cases b with
    | nil => rfl
    | cons y ys => simp [charListLess] at h1
  | cons x xs ih =>
    intro b h1 h2
    cases b with
    | nil => simp [charListLess] at h2
    | cons y ys =>
      simp only [charListLess] at h1 h2
      by_cases hx : x.toNat < y.toNat
      · rw [if_pos hx] at h1
        exact absurd h1 (by simp)
      · by_cases hy : y.toNat < x.toNat
        · rw [if_pos hy] at h2
          exact absurd h2 (by simp)
        · rw [if_neg hx, if_neg hy] at h1
          rw [if_neg hy, if_neg hx] at h2
          have ht : x.toNat = y.toNat := by omega
          have hxy : x = y := by
            rw [← Char.ofNat_toNat x, ← Char.ofNat_toNat y, ht]
          rw [hxy, ih ys h1 h2]

theorem strLess_trans (a b c : String) (h1 : strLess a b = true)
    (h2 : strLess b c = true) : strLess a c = true :=
  charListLess_trans _ _ _ h1 h2

theorem strLess_asym (a b : String) (h : strLess a b = true) :
    strLess b a = false :=
  charListLess_asym _ _ h

theorem strLess_eq_of_not (a b : String) (h1 : strLess a b = false)
    (h2 : strLess b a = false) : a = b := by
  have hd := charListLess_eq_of_not a.toList b.toList h1 h2
  cases a with
  | mk da =>
    cases b with
    | mk db => exact congrArg String.mk hd

theorem strLess_total (a b : String) (h : a ≠ b) :
    strLess a b = true ∨ strLess b a = true := by
  cases h1 : strLess a b with
  | true => exact Or.inl rfl
  | false =>
    cases h2 : strLess b a with
    | true => exact Or.inr rfl
    | false => exact absurd (strLess_eq_of_not a b h1 h2) h

/-! ### The header sorter (`keyValues`, `headerSorter.Less`) -/

/-- `keyValues` from the source: a header key paired with its values. -/
structure keyValues where
  key : String
  values : List String
deriving DecidableEq

/-- The order map built by `sortedKeyValuesBy`:
`for i, v := range headerOrder { sorter.order[v] = i }` — for duplicated
names the later index wins.  `orderRank order k` is the map lookup
`order[k]`. -/
def orderRank : List String → String → Option Nat
  | [], _ => none
  | v :: rest, k =>
    match orderRank rest k with
    | some i => some (i + 1)
    | none => if v = k then some 0 else none

/-- `headerSorter.Less` from the source.  With an empty order map it is
lexicographic on keys; otherwise ranked keys (looked up after
lower-casing) sort by rank and come before unranked keys, and two
unranked keys compare lexicographically. -/
def headerSorterLess (order : List String) (a b : keyValues) : Bool :=
  if order.isEmpty then strLess a.key b.key
  else
    match orderRank order (strLower a.key), orderRank order (strLower b.key) with
    | none, none => strLess a.key b.key
    | none, some _ => false
    | some _, none => true
    | some si, some sj => decide (si < sj)

/-! ### Stable insertion sort, as Go's `sort.Sort` performs on small slices -/

/-- Insert `x` into `l` from the left, placing it before the first element
it compares strictly below — the position Go's in-place insertion sort
moves a newly considered element to. -/
def sortInsert (less : α → α → Bool) (x : α) : List α → List α
  | [] => [x]
  | y :: ys => if less x y then x :: y :: ys else y :: sortInsert less x ys

/-- Left-to-right stable insertion sort: Go's `insertionSort`, which
`sort.Sort` uses on slices shorter than 12 elements. -/
def goSort (less : α → α → Bool) (l : List α) : List α :=
  l.foldl (fun s x => sortInsert less x s) []

/-- `sortedKeyValues` from the source (pool sorter taken as fresh, so the
order map is empty). -/
def sortedKeyValues (header : List keyValues) : List keyValues :=
  goSort (headerSorterLess []) header

/-- `sortedKeyValuesBy` from the source: sort by the rank of each
(lower-cased) key in `headerOrder`. -/
def sortedKeyValuesBy (header : List keyValues) (headerOrder : List String) :
    List keyValues :=
  goSort (headerSorterLess headerOrder) header

/-! ### Generic lemmas about the insertion sort -/

theorem sortInsert_perm (less : α → α → Bool) (x : α) :
    ∀ l : List α, (sortInsert less x l).Perm (x :: l) := by
  intro l
  induction l with
  | nil => simp [sortInsert]
  | cons y ys ih =>
    by_cases h : less x y = true
    · simp [sortInsert, h]
    · simp only [sortInsert, h]
      rw [if_neg (by simp [h])]
      exact ((ih.cons y).trans (List.Perm.swap x y ys))

theorem goSort_perm_aux (less : α → α → Bool) :
    ∀ (l s : List α), (l.foldl (fun s x => sortInsert less x s) s).Perm (s ++ l) := by
  intro l
  induction l with
  | nil => intro s; simp
  | cons x xs ih =>
    intro s
    have h1 := ih (sortInsert less x s)
    have h2 : (sortInsert less x s ++ xs).Perm ((x :: s) ++ xs) :=
      (sortInsert_perm less x s).append_right xs
    have h3 : ((x :: s) ++ xs).Perm (s ++ x :: xs) := by
      simpa using List.perm_middle.symm
    exact (h1.trans h2).trans h3

theorem goSort_perm (less : α → α → Bool) (l : List α) :
    (goSort less l).Perm l := by
  simpa using goSort_perm_aux less l []

theorem mem_sortInsert (less : α → α → Bool) (x : α) (l : List α) (z : α)
    (hz : z ∈ sortInsert less x l) : z = x ∨ z ∈ l := by
  have := (sortInsert_perm less x l).mem_iff.mp hz
  simpa using this

theorem sortInsert_pairwise (less : α → α → Bool)
    (htrans : ∀ a b c, less a b = true → less b c = true → less a c = true)
    (hasym : ∀ a b, less a b = true → less b a = false)
    (x : α) :
    ∀ l : List α, l.Pairwise (fun a b => less b a = false) →
      (sortInsert less x l).Pairwise (fun a b => less b a = false) := by
  intro l
  induction l with
  | nil => intro _; simp [sortInsert]
  | cons y ys ih =>
    intro hp
    rw [List.pairwise_cons] at hp
    obtain ⟨hy, hys⟩ := hp
    by_cases h : less x y = true
    · simp only [sortInsert, if_pos h]
      refine List.Pairwise.cons ?_ (List.Pairwise.cons hy hys)
      intro z hz
      rcases List.mem_cons.mp hz with rfl | hz
      · exact hasym x z h
      · -- if `less z x` held then `less z y` would, contradicting sortedness
        by_contra hzx
        have hzx' : less z x = true := by
          cases hzz : less z x with
          | false => exact absurd hzz hzx
          | true => rfl
        have := htrans z x y hzx' h
        rw [hy z hz] at this
        exact Bool.noConfusion this
    · have h' : less x y = false := by
        cases hzz : less x y with
        | false => rfl
        | true => exact absurd hzz h
      simp only [sortInsert, h']
      rw [if_neg (by simp)]
      refine List.Pairwise.cons ?_ (ih hys)
      intro z hz
      rcases mem_sortInsert less x ys z hz with rfl | hz
      · exact h'
      · exact hy z hz

theorem goSort_pairwise (less : α → α → Bool)
    (htrans : ∀ a b c, less a b = true → less b c = true → less a c = true)
    (hasym : ∀ a b, less a b = true → less b a = false)
    (l : List α) :
    (goSort less l).Pairwise (fun a b => less b a = false) := by
  suffices h : ∀ (l s : List α), s.Pairwise (fun a b => less b a = false) →
      (l.foldl (fun s x => sortInsert less x s) s).Pairwise
        (fun a b => less b a = false) by
    exact h l [] (by simp)
  intro l
  induction l with
  | nil => intro s hs; simpa using hs
  | cons x xs ih =>
    intro s hs
    exact ih (sortInsert less x s) (sortInsert_pairwise less htrans hasym x s hs)

/-- Two sorted lists that are permutations of each other over elements on
which `less` is trichotomous are equal: this is what makes the emitted
header order independent of the map-iteration order. -/
theorem sorted_unique (less : α → α → Bool) :
    ∀ l₁ l₂ : List α, l₁.Perm l₂ →
      l₁.Pairwise (fun a b => less b a = false) →
      l₂.Pairwise (fun a b => less b a = false) →
      (∀ x ∈ l₁, ∀ y ∈ l₁, x = y ∨ less x y = true ∨ less y x = true) →
      l₁ = l₂ := by
  intro l₁
  induction l₁ with
  | nil =>
    intro l₂ hperm _ _ _
    exact (hperm.nil_eq).symm ▸ rfl
  | cons x xs ih =>
    intro l₂ hperm h₁ h₂ htri
    cases l₂ with
    | nil => exact absurd hperm.symm.nil_eq (by simp)
    | cons y ys =>
      by_cases hxy : x = y
      · subst hxy
        have htail : xs.Perm ys := hperm.cons_inv
        rw [List.pairwise_cons] at h₁ h₂
        have := ih ys htail h₁.2 h₂.2 (fun a ha b hb =>
          htri a (List.mem_cons_of_mem x ha) b (List.mem_cons_of_mem x hb))
        rw [this]
      · exfalso
        have hxl₂ : x ∈ y :: ys := hperm.mem_iff.mp (List.mem_cons_self x xs)
        have hyl₁ : y ∈ x :: xs := hperm.symm.mem_iff.mp (List.mem_cons_self y ys)
        have hxys : x ∈ ys := by
          rcases List.mem_cons.mp hxl₂ with h | h
          · exact absurd h hxy
          · exact h
        have hyxs : y ∈ xs := by
          rcases List.mem_cons.mp hyl₁ with h | h
          · exact absurd h.symm hxy
          · exact h
        rw [List.pairwise_cons] at h₁ h₂
        have hxy1 : less y x = false := h₁.1 y hyxs
        have hxy2 : less x y = false := h₂.1 x hxys
        rcases htri x (List.mem_cons_self x xs) y (List.mem_cons_of_mem x hyxs) with
          h | h | h
        · exact hxy h
        · rw [hxy2] at h; exact Bool.noConfusion h
        · rw [hxy1] at h; exact Bool.noConfusion h

/-! ### Properties of `headerSorter.Less` -/

theorem orderRank_inj (o : List String) :
    ∀ k₁ k₂ i, orderRank o k₁ = some i → orderRank o k₂ = some i → k₁ = k₂ := by
  induction o with
  | nil => intro k₁ k₂ i h₁ _; exact absurd h₁ (by simp [orderRank])
  | cons v rest ih =>
    intro k₁ k₂ i h₁ h₂
    simp only [orderRank] at h₁ h₂
    rcases hr₁ : orderRank rest k₁ with _ | i₁ <;> rw [hr₁] at h₁ <;>
      rcases hr₂ : orderRank rest k₂ with _ | i₂ <;> rw [hr₂] at h₂ <;>
        simp only [Option.some.injEq] at h₁ h₂
    · -- both found only at the head position
      rcases h₁' : (v = k₁ : Prop) with _ <;> clear h₁'
      by_cases hv₁ : v = k₁
      · by_cases hv₂ : v = k₂
        · exact hv₁ ▸ hv₂
        · rw [if_neg hv₂] at h₂; exact absurd h₂ (by simp)
      · rw [if_neg hv₁] at h₁; exact absurd h₁ (by simp)
    · -- k₁ at head (rank 0), k₂ in rest (rank i₂+1): ranks cannot agree
      by_cases hv₁ : v = k₁
      · rw [if_pos hv₁] at h₁
        simp only [Option.some.injEq] at h₁
        omega
      · rw [if_neg hv₁] at h₁; exact absurd h₁ (by simp)
    · by_cases hv₂ : v = k₂
      · rw [if_pos hv₂] at h₂
        simp only [Option.some.injEq] at h₂
        omega
      · rw [if_neg hv₂] at h₂; exact absurd h₂ (by simp)
    · exact ih k₁ k₂ i₁ hr₁ (by rw [hr₂]; exact congrArg some (by omega))

theorem headerSorterLess_trans (o : List String) (a b c : keyValues)
    (hab : headerSorterLess o a b = true) (hbc : headerSorterLess o b c = true) :
    headerSorterLess o a c = true := by
  by_cases ho : o.isEmpty
  · simp only [headerSorterLess, ho, if_true] at *
    exact strLess_trans _ _ _ hab hbc
  · simp only [headerSorterLess, ho, if_false] at *
    rcases hra : orderRank o (strLower a.key) with _ | ri <;>
      rcases hrb : orderRank o (strLower b.key) with _ | rj <;>
        rcases hrc : orderRank o (strLower c.key) with _ | rk <;>
          simp_all
    · exact strLess_trans _ _ _ hab hbc
    · omega

theorem headerSorterLess_asym (o : List String) (a b : keyValues)
    (hab : headerSorterLess o a b = true) :
    headerSorterLess o b a = false := by
  by_cases ho : o.isEmpty
  · simp only [headerSorterLess, ho, if_true] at *
    exact strLess_asym _ _ hab
  · simp only [headerSorterLess, ho, if_false] at *
    rcases hra : orderRank o (strLower a.key) with _ | ri <;>
      rcases hrb : orderRank o (strLower b.key) with _ | rj <;>
        simp_all
    · exact strLess_asym _ _ hab
    · omega

/-- Two headers whose lower-cased names differ are always strictly ordered
one way or the other by `headerSorter.Less`. -/
theorem headerSorterLess_total (o : List String) (a b : keyValues)
    (hne : strLower a.key ≠ strLower b.key) :
    headerSorterLess o a b = true ∨ headerSorterLess o b a = true := by
  have hkey : a.key ≠ b.key := fun h => hne (by rw [h])
  have hlex : strLess a.key b.key = true ∨ strLess b.key a.key = true :=
    strLess_total _ _ hkey
  by_cases ho : o.isEmpty
  · simp only [headerSorterLess, ho, if_true]
    exact hlex
  · simp only [headerSorterLess, ho, if_false]
    rcases hra : orderRank o (strLower a.key) with _ | ri <;>
      rcases hrb : orderRank o (strLower b.key) with _ | rj <;> simp_all
    have : ri ≠ rj := fun h => hne (orderRank_inj o _ _ ri hra (h ▸ hrb))
    omega

/-! ### The ordering asserted by the specification -/

/-- The header ordering asserted by the specification sentence: ranked
names ascending by rank (rank looked up after lower-casing), every
unranked name after all ranked ones, ties broken lexicographically by
name; with no configured order, lexicographic by name. -/
def specHeaderRelB (order : List String) (a b : keyValues) : Bool :=
  match orderRank order (strLower a.key), orderRank order (strLower b.key) with
  | some i, some j => decide (i < j) || (decide (i = j) && strLess a.key b.key)
  | some _, none => true
  | none, some _ => false
  | none, none => strLess a.key b.key

theorem orderRank_nil (k : String) : orderRank [] k = none := rfl

theorem specRel_of_notLess (o : List String) (a b : keyValues)
    (hne : strLower a.key ≠ strLower b.key)
    (hnl : headerSorterLess o b a = false) : specHeaderRelB o a b = true := by
  have hkey : a.key ≠ b.key := fun h => hne (by rw [h])
  have hlt : strLess b.key a.key = false → strLess a.key b.key = true := by
    intro h
    cases h' : strLess a.key b.key with
    | true => rfl
    | false => exact absurd (strLess_eq_of_not _ _ h' h) hkey
  by_cases ho : o.isEmpty
  · have hnil : o = [] := by
      cases o with
      | nil => rfl
      | cons x xs => simp [List.isEmpty] at ho
    subst hnil
    simp only [headerSorterLess, List.isEmpty, if_true] at hnl
    simp only [specHeaderRelB, orderRank_nil]
    exact hlt hnl
  · simp only [headerSorterLess, ho, if_false] at hnl
    simp only [specHeaderRelB]
    rcases hra : orderRank o (strLower a.key) with _ | ri <;>
      rcases hrb : orderRank o (strLower b.key) with _ | rj <;>
        simp_all
    · have hij : ri ≠ rj := fun h => hne (orderRank_inj o _ _ ri hra (h ▸ hrb))
      omega

/-- Sorting with a fresh sorter is invariant under the iteration order of
the header map, provided no two keys collide after lower-casing. -/
theorem sortedKeyValuesBy_det (o : List String) (h₁ h₂ : List keyValues)
    (hperm : h₁.Perm h₂)
    (hdist : h₁.Pairwise fun a b => strLower a.key ≠ strLower b.key) :
    sortedKeyValuesBy h₁ o = sortedKeyValuesBy h₂ o := by
  have hless := headerSorterLess o
  apply sorted_unique (headerSorterLess o)
  · exact ((goSort_perm _ h₁).trans hperm).trans (goSort_perm _ h₂).symm
  · exact goSort_pairwise _ (headerSorterLess_trans o) (headerSorterLess_asym o) h₁
  · exact goSort_pairwise _ (headerSorterLess_trans o) (headerSorterLess_asym o) h₂
  · intro x hx y hy
    have hx' : x ∈ h₁ := (goSort_perm _ h₁).mem_iff.mp hx
    have hy' : y ∈ h₁ := (goSort_perm _ h₁).mem_iff.mp hy
    by_cases hxy : x = y
    · exact Or.inl hxy
    · have hsym : Symmetric fun a b : keyValues => strLower a.key ≠ strLower b.key :=
        fun a b hab => fun h => hab h.symm
      have := hdist.forall hsym hx' hy' hxy
      exact Or.inr (headerSorterLess_total o x y this)

/-! ### Cookie splitting (`encodeHeaders`, the `cookie` branch)

The source iterates: find the next `';'`, emit everything before it
(even if empty), skip the `';'` and then every following space
(`for p+1 <= len(v) && v[p] == ' ' { p++ }`), and finally emit the
remaining non-empty tail. -/

/-- One iteration of the source loop, with a fuel parameter so the
definition is structurally recursive (the fuel is a termination device
only: `splitCookieList` supplies `v.length`, which
`splitCookieGo_fuel_irrelevant` shows is always enough, and
`splitCookieList_unfold` recovers the loop equation). -/
def splitCookieGo : Nat → List Char → List (List Char)
  | 0, v => if v = [] then [] else [v]
  | fuel + 1, v =>
    match v.dropWhile (· ≠ ';') with
    | [] => if v = [] then [] else [v]
    | _ :: rest => v.takeWhile (· ≠ ';') :: splitCookieGo fuel (rest.dropWhile (· = ' '))

def splitCookieList (v : List Char) : List (List Char) :=
  splitCookieGo v.length v

theorem splitCookieGo_fuel_irrelevant :
    ∀ (fuel₁ fuel₂ : Nat) (v : List Char), v.length ≤ fuel₁ → v.length ≤ fuel₂ →
      splitCookieGo fuel₁ v = splitCookieGo fuel₂ v := by
  intro fuel₁
  induction fuel₁ with
  | zero =>
    intro fuel₂ v h₁ _
    have hv : v = [] := List.length_eq_zero.mp (Nat.le_zero.mp h₁)
    subst hv
    cases fuel₂ <;> simp [splitCookieGo]
  | succ f ih =>
    intro fuel₂ v h₁ h₂
    cases fuel₂ with
    | zero =>
      have hv : v = [] := List.length_eq_zero.mp (Nat.le_zero.mp h₂)
      subst hv
      simp [splitCookieGo]
    | succ f₂ =>
      simp only [splitCookieGo]
      rcases hdrop : v.dropWhile (· ≠ ';') with _ | ⟨y, rest⟩
      · rfl
      · have hlen : (v.dropWhile (· ≠ ';')).length ≤ v.length :=
          (List.dropWhile_sublist _).length_le
        rw [hdrop] at hlen
        simp only [List.length_cons] at hlen
        have hr : (rest.dropWhile (· = ' ')).length ≤ rest.length :=
          (List.dropWhile_sublist _).length_le
        show v.takeWhile (· ≠ ';') :: splitCookieGo f (rest.dropWhile (· = ' ')) =
          v.takeWhile (· ≠ ';') :: splitCookieGo f₂ (rest.dropWhile (· = ' '))
        rw [ih f₂ (rest.dropWhile (· = ' ')) (by omega) (by omega)]

/-- The loop equation of the source: find the next `';'`, emit everything
before it (even if empty), skip the `';'` and all following spaces,
continue on the remainder; at the end emit the non-empty tail. -/
theorem splitCookieList_unfold (v : List Char) :
    splitCookieList v =
      match v.dropWhile (· ≠ ';') with
      | [] => if v = [] then [] else [v]
      | _ :: rest =>
        v.takeWhile (· ≠ ';') :: splitCookieList (rest.dropWhile (· = ' ')) := by
  unfold splitCookieList
  cases hl : v.length with
  | zero =>
    have hv : v = [] := List.length_eq_zero.mp hl
    subst hv
    simp [splitCookieGo]
  | succ n =>
    simp only [splitCookieGo]
    rcases hdrop : v.dropWhile (· ≠ ';') with _ | ⟨y, rest⟩
    · rfl
    · have hlen : (v.dropWhile (· ≠ ';')).length ≤ v.length :=
        (List.dropWhile_sublist _).length_le
      rw [hdrop, hl] at hlen
      simp only [List.length_cons] at hlen
      have hr : (rest.dropWhile (· = ' ')).length ≤ rest.length :=
        (List.dropWhile_sublist _).length_le
      show v.takeWhile (· ≠ ';') :: splitCookieGo n (rest.dropWhile (· = ' ')) =
        v.takeWhile (· ≠ ';') :: splitCookieList (rest.dropWhile (· = ' '))
      unfold splitCookieList
      rw [splitCookieGo_fuel_irrelevant n ((rest.dropWhile (· = ' ')).length) _
        (by omega) (le_refl _)]

/-- The cookie-pair wire fields produced from one `Cookie` value. -/
def splitCookieValue (s : String) : List String :=
  (splitCookieList s.toList).map String.mk

/-! #### Specification-side cookie splitting -/

/-- Plain split on a character, keeping empty pieces (`strings.Split`). -/
def splitOnChar (c : Char) : List Char → List (List Char)
  | [] => [[]]
  | x :: xs =>
    match splitOnChar c xs with
    | [] => [[x]]
    | h :: t => if x = c then [] :: h :: t else (x :: h) :: t

/-- Drop a final empty piece, keep everything else. -/
def dropTrailEmpty : List (List Char) → List (List Char)
  | [] => []
  | [x] => if x = [] then [] else [x]
  | x :: y :: rest => x :: dropTrailEmpty (y :: rest)

/-- Cookie splitting as the amended claim states it: split the value on
`;`, trim all leading spaces from every piece after the first, drop a
final empty piece, and emit each remaining piece as one wire field. -/
def specCookieSplit (v : List Char) : List (List Char) :=
  match splitOnChar ';' v with
  | [] => []
  | p :: ps => dropTrailEmpty (p :: ps.map (fun q => q.dropWhile (· = ' ')))

/-- Cookie splitting as the original claim literally states it: one
leading space trimmed per split. -/
def claimCookieSplitOne (v : List Char) : List (List Char) :=
  match splitOnChar ';' v with
  | [] => []
  | p :: ps =>
    dropTrailEmpty (p :: ps.map (fun q =>
      match q with
      | ' ' :: q' => q'
      | _ => q))

theorem splitOnChar_ne_nil (c : Char) (v : List Char) : splitOnChar c v ≠ [] := by
  cases v with
  | nil => simp [splitOnChar]
  | cons x xs =>
    simp only [splitOnChar]
    rcases h : splitOnChar c xs with _ | ⟨hd, tl⟩
    · simp
    · by_cases hx : x = c <;> simp [hx]

theorem splitOnChar_unfold (c : Char) (v : List Char) :
    splitOnChar c v = v.takeWhile (· ≠ c) ::
      (match v.dropWhile (· ≠ c) with
       | [] => []
       | _ :: rest => splitOnChar c rest) := by
  induction v with
  | nil => simp [splitOnChar]
  | cons x xs ih =>
    by_cases hx : x = c
    · subst hx
      simp only [splitOnChar, List.takeWhile, List.dropWhile]
      rcases h : splitOnChar x xs with _ | ⟨hd, tl⟩
      · exact absurd h (splitOnChar_ne_nil x xs)
      · simp [← h]
    · simp only [splitOnChar, List.takeWhile, List.dropWhile]
      rw [ih]
      simp [hx]

theorem dropWhile_head_false {p : Char → Bool} :
    ∀ (l : List Char) (y : Char) (t : List Char), l.dropWhile p = y :: t → p y = false := by
  intro l
  induction l with
  | nil => intro y t h; exact absurd h (by simp)
  | cons x xs ih =>
    intro y t h
    by_cases hx : p x = true
    · rw [List.dropWhile_cons_of_pos hx] at h
      exact ih y t h
    · have hx' : p x = false := by
        cases hq : p x with
        | false => rfl
        | true => exact absurd hq hx
      rw [List.dropWhile_cons_of_neg (by simp [hx'])] at h
      cases h
      exact hx'

theorem dropTrailEmpty_cons (x : List Char) (l : List (List Char)) (hl : l ≠ []) :
    dropTrailEmpty (x :: l) = x :: dropTrailEmpty l := by
  cases l with
  | nil => exact absurd rfl hl
  | cons y rest => rfl

/-- Dropping leading spaces commutes with taking the part before `;`. -/
theorem takeWhile_semi_dropSpaces (r : List Char) :
    (r.dropWhile (· = ' ')).takeWhile (· ≠ ';') =
      (r.takeWhile (· ≠ ';')).dropWhile (· = ' ') := by
  induction r with
  | nil => simp
  | cons x xs ih =>
    by_cases hx : x = ' '
    · subst hx
      simpa [List.dropWhile_cons, List.takeWhile_cons] using ih
    · by_cases hs : x = ';'
      · subst hs
        simp [List.dropWhile_cons, List.takeWhile_cons]
      · simp [List.dropWhile_cons, List.takeWhile_cons, hx, hs]

theorem dropWhile_semi_dropSpaces (r : List Char) :
    (r.dropWhile (· = ' ')).dropWhile (· ≠ ';') = r.dropWhile (· ≠ ';') := by
  induction r with
  | nil => simp
  | cons x xs ih =>
    by_cases hx : x = ' '
    · subst hx
      simpa [List.dropWhile_cons] using ih
    · by_cases hs : x = ';'
      · subst hs
        simp [List.dropWhile_cons]
      · simp [List.dropWhile_cons, hx, hs]

/-- The iterative splitter of the source, applied after stripping leading
spaces, agrees with the specification-side splitter that trims every
piece. -/
theorem splitCookieList_dropSpaces (r : List Char) :
    splitCookieList (r.dropWhile (· = ' ')) =
      dropTrailEmpty ((splitOnChar ';' r).map (fun q => q.dropWhile (· = ' '))) := by
  rcases hdrop : r.dropWhile (· ≠ ';') with _ | ⟨y, rest⟩
  · have htake : r.takeWhile (· ≠ ';') = r := by
      have := List.takeWhile_append_dropWhile (· ≠ ';') r
      rw [hdrop] at this
      simpa using this
    rw [splitCookieList_unfold]
    rw [dropWhile_semi_dropSpaces, hdrop]
    rw [splitOnChar_unfold, hdrop]
    simp only [List.map_cons, List.map_nil, htake]
    by_cases hr : r.dropWhile (· = ' ') = []
    · rw [if_pos hr, dropTrailEmpty, if_pos hr]
    · rw [if_neg hr, dropTrailEmpty, if_neg hr]
  · have hy : y = ';' := by
      have := dropWhile_head_false r y rest hdrop
      simpa using this
    subst hy
    rw [splitCookieList_unfold]
    rw [dropWhile_semi_dropSpaces, hdrop]
    rw [takeWhile_semi_dropSpaces]
    rw [splitOnChar_unfold, hdrop]
    simp only [List.map_cons]
    rw [dropTrailEmpty_cons _ _ (by
      simp only [ne_eq, List.map_eq_nil_iff]
      exact splitOnChar_ne_nil ';' rest)]
    rw [splitCookieList_dropSpaces rest]
termination_by r.length
decreasing_by
  have h2 : (r.dropWhile (· ≠ ';')).length ≤ r.length := (List.dropWhile_sublist _).length_le
  rw [hdrop] at h2
  simp only [List.length_cons] at h2
  omega

/-- The source cookie splitter equals the amended-specification splitter. -/
theorem splitCookieList_eq_spec (v : List Char) :
    splitCookieList v = specCookieSplit v := by
  rcases hdrop : v.dropWhile (· ≠ ';') with _ | ⟨y, rest⟩
  · have htake : v.takeWhile (· ≠ ';') = v := by
      have := List.takeWhile_append_dropWhile (· ≠ ';') v
      rw [hdrop] at this
      simpa using this
    rw [splitCookieList_unfold]
    rw [hdrop]
    unfold specCookieSplit
    rw [splitOnChar_unfold, hdrop]
    simp only [htake, List.map_nil]
    by_cases hv : v = []
    · rw [if_pos hv, dropTrailEmpty, if_pos hv]
    · rw [if_neg hv, dropTrailEmpty, if_neg hv]
  · have hy : y = ';' := by
      have := dropWhile_head_false v y rest hdrop
      simpa using this
    subst hy
    rw [splitCookieList_unfold]
    rw [hdrop]
    unfold specCookieSplit
    rw [splitOnChar_unfold, hdrop]
    simp only [List.map_cons]
    rw [dropTrailEmpty_cons _ _ (by
      simp only [ne_eq, List.map_eq_nil_iff]
      exact splitOnChar_ne_nil ';' rest)]
    rw [splitCookieList_dropSpaces rest]

/-! ### x/net helpers used by `encodeHeaders`

These helpers are library code (`golang.org/x/net/http2`, `httpguts`,
`hpack`) outside this repository; they are modelled after their upstream
definitions. -/

/-- `lowerHeader`: lower-case an ASCII header name, report non-ASCII
names so the caller can skip them. -/
def lowerHeader (s : String) : String × Bool :=
  if s.toList.all (fun c => c.toNat < 128) then (strLower s, true) else (s, false)

/-- `shouldSendReqContentLength`. -/
def shouldSendReqContentLength (method : String) (contentLength : Int) : Bool :=
  if contentLength > 0 then true
  else if contentLength < 0 then false
  else method = "POST" || method = "PUT" || method = "PATCH"

def defaultUserAgent : String := "Go-http-client/2.0"

/-- `httpguts.IsTokenRune`. -/
def isTokenChar (c : Char) : Bool :=
  ('a' ≤ c && c ≤ 'z') || ('A' ≤ c && c ≤ 'Z') || ('0' ≤ c && c ≤ '9') ||
    c = '!' || c = '#' || c = '$' || c = '%' || c = '&' || c = '\'' ||
    c = '*' || c = '+' || c = '-' || c = '.' || c = '^' || c = '_' ||
    c = '`' || c = '|' || c = '~'

/-- `httpguts.ValidHeaderFieldName`. -/
def validHeaderFieldName (s : String) : Bool :=
  !s.isEmpty && s.toList.all isTokenChar

/-- `httpguts.ValidHeaderFieldValue`: every byte is `\t` or printable
(≥ 0x20 and ≠ 0x7f); multi-byte runes only contribute bytes ≥ 0x80. -/
def validHeaderFieldValue (s : String) : Bool :=
  s.toList.all (fun c => c = '\t' || (32 ≤ c.toNat && c.toNat ≠ 127))

/-- `validateHeaders` (x/net): every name is a valid field name (with the
`:protocol` exemption) and every value is a valid field value. -/
def validateHeaders (h : List keyValues) : Bool :=
  h.all (fun kv =>
    (validHeaderFieldName kv.key || kv.key = ":protocol") &&
      kv.values.all validHeaderFieldValue)

/-- `hpack.HeaderField.Size`: byte length of name and value plus 32
(RFC 7541 §4.1). -/
def headerFieldSize (f : String × String) : Nat :=
  f.1.utf8ByteSize + f.2.utf8ByteSize + 32

/-! ### The `enumerateHeaders` closure of `ClientConn.encodeHeaders` -/

/-- The fingerprint options consulted by `encodeHeaders`
(`Options.HeaderOrder`, `Options.PHeaderOrder`). -/
structure OptionsM where
  headerOrder : List String
  pheaderOrder : List String
deriving DecidableEq

/-- The request data used by the header-ordering pipeline: method, the
already-punycoded authority, the computed `:path` value, the URL scheme,
and the header map as an association list in iteration order. -/
structure RequestM where
  method : String
  host : String
  path : String
  scheme : String
  header : List keyValues
deriving DecidableEq

/-- `http.Header.Get`: first value of the exact key, `""` if absent. -/
def getHeaderValue : List keyValues → String → String
  | [], _ => ""
  | kv :: rest, k =>
    if kv.key = k then
      match kv.values with
      | [] => ""
      | v :: _ => v
    else getHeaderValue rest k

/-- `isNormalConnect` (x/net): a CONNECT request that is not an extended
CONNECT (no `:protocol` header). -/
def isNormalConnect (req : RequestM) : Bool :=
  req.method = "CONNECT" && getHeaderValue req.header ":protocol" = ""

/-- `m := req.Method; if m == "" { m = http.MethodGet }`. -/
def methodOf (req : RequestM) : String :=
  if req.method = "" then "GET" else req.method

/-- The `PHeaderOrder` loop of `enumerateHeaders`: recognized tokens emit
their pseudo-header when applicable, everything else is skipped. -/
def pseudoFromOrder (req : RequestM) : List String → List (String × String)
  | [] => []
  | p :: ps =>
    (if p = ":authority" then [(":authority", req.host)]
     else if p = ":method" then [(":method", methodOf req)]
     else if p = ":path" then
       (if req.method ≠ "CONNECT" then [(":path", req.path)] else [])
     else if p = ":scheme" then
       (if req.method ≠ "CONNECT" then [(":scheme", req.scheme)] else [])
     else []) ++ pseudoFromOrder req ps

/-- The pseudo-header section of `enumerateHeaders`: the `PHeaderOrder`
loop when configured, otherwise the fixed Go order. -/
def pseudoHeaders (opt : OptionsM) (req : RequestM) : List (String × String) :=
  if opt.pheaderOrder ≠ [] then pseudoFromOrder req opt.pheaderOrder
  else
    [(":authority", req.host), (":method", methodOf req)] ++
      (if isNormalConnect req then []
       else [(":path", req.path), (":scheme", req.scheme)])

/-- The cookie branch: each value split into cookie-pair fields. -/
def cookieFields : List String → List (String × String)
  | [] => []
  | v :: rest =>
    (splitCookieValue v).map (fun c => ("cookie", c)) ++ cookieFields rest

/-- One step of the regular-header loop: the wire fields contributed by
`kv`, and whether the key was `user-agent` (which suppresses the default
user agent even when nothing is emitted). -/
def headerFieldsOf (kv : keyValues) : List (String × String) × Bool :=
  if asciiEqualFold kv.key "host" || asciiEqualFold kv.key "content-length" then
    ([], false)
  else if asciiEqualFold kv.key "connection" || asciiEqualFold kv.key "proxy-connection" ||
      asciiEqualFold kv.key "transfer-encoding" || asciiEqualFold kv.key "upgrade" ||
      asciiEqualFold kv.key "keep-alive" then
    ([], false)
  else if asciiEqualFold kv.key "user-agent" then
    match kv.values with
    | [] => ([], true)
    | v :: _ => if v = "" then ([], true) else ([(kv.key, v)], true)
  else if asciiEqualFold kv.key "cookie" then
    (cookieFields kv.values, false)
  else
    (kv.values.map (fun v => (kv.key, v)), false)

/-- The regular-header loop over the sorted key/value list. -/
def regularFields : List keyValues → List (String × String) × Bool
  | [] => ([], false)
  | kv :: rest =>
    let fs := headerFieldsOf kv
    let rest' := regularFields rest
    (fs.1 ++ rest'.1, fs.2 || rest'.2)

/-- `enumerateHeaders` from `ClientConn.encodeHeaders` (part_001):
pseudo-headers, the `trailer` announcement, the sorted regular headers
with the drop/collapse/split rules, then `content-length`,
`accept-encoding` and the default `user-agent`. -/
def enumerateHeaders (opt : OptionsM) (req : RequestM) (trailers : String)
    (addGzipHeader : Bool) (contentLength : Int) : List (String × String) :=
  let kvs := if opt.headerOrder ≠ [] then sortedKeyValuesBy req.header opt.headerOrder
             else sortedKeyValues req.header
  let reg := regularFields kvs
  pseudoHeaders opt req ++
    (if trailers ≠ "" then [("trailer", trailers)] else []) ++
    reg.1 ++
    (if shouldSendReqContentLength req.method contentLength then
       [("content-length", toString contentLength)] else []) ++
    (if addGzipHeader then [("accept-encoding", "gzip")] else []) ++
    (if reg.2 then [] else [("user-agent", defaultUserAgent)])

inductive EncodeError
  | invalidHeader
  | requestHeaderListSize
deriving DecidableEq

/-- `ClientConn.encodeHeaders` (part_001), threading the HPACK encoder
state `σ` through `cc.writeHeader`: header validation, a first
size-counting pass over `enumerateHeaders` compared against the peer max
header list size, then the writing pass that lower-cases names, skips
non-ASCII names and feeds the encoder.  The URL/host syntactic
validation preceding this point in the source is orthogonal to the
claims and not modelled; the trailer map is likewise omitted (the
`trailers` announcement string is kept). -/
def encodeHeaders {σ : Type} (wh : σ → String × String → σ) (st : σ)
    (opt : OptionsM) (peerMaxHeaderListSize : Nat) (req : RequestM)
    (trailers : String) (addGzipHeader : Bool) (contentLength : Int) :
    Except EncodeError (List (String × String)) × σ :=
  if ¬ validateHeaders req.header then (Except.error EncodeError.invalidHeader, st)
  else
    let fields := enumerateHeaders opt req trailers addGzipHeader contentLength
    let hlSize := (fields.map headerFieldSize).sum
    if hlSize > peerMaxHeaderListSize then
      (Except.error EncodeError.requestHeaderListSize, st)
    else
      let wire := fields.filterMap (fun f =>
        if (lowerHeader f.1).2 then some ((lowerHeader f.1).1, f.2) else none)
      (Except.ok wire, wire.foldl wh st)

theorem perm_all_eq (f : keyValues → Bool) {l₁ l₂ : List keyValues}
    (h : l₁.Perm l₂) : l₁.all f = l₂.all f := by
  rw [Bool.eq_iff_iff]
  simp only [List.all_eq_true]
  constructor
  · intro hh x hx; exact hh x (h.mem_iff.mpr hx)
  · intro hh x hx; exact hh x (h.mem_iff.mp hx)

/-! ### `Setting`, `Setting.Valid` (part_000) and the setup phase of
`Transport.newClientConn` (part_001) -/

def SettingHeaderTableSize : Nat := 1
def SettingEnablePush : Nat := 2
def SettingMaxConcurrentStreams : Nat := 3
def SettingInitialWindowSize : Nat := 4
def SettingMaxFrameSize : Nat := 5
def SettingMaxHeaderListSize : Nat := 6

/-- `Setting`: which setting (uint16 id) and its uint32 value. -/
structure Setting where
  id : Nat
  val : Nat
deriving DecidableEq

inductive ErrCode
  | protocol
  | flowControl
deriving DecidableEq

/-- `Setting.Valid` (part_000): limits from RFC 7540 §6.5.2.  Settings
with any other id — including unknown ids — pass. -/
def Setting.valid (s : Setting) : Option ErrCode :=
  if s.id = SettingEnablePush then
    if s.val ≠ 1 ∧ s.val ≠ 0 then some ErrCode.protocol else none
  else if s.id = SettingInitialWindowSize then
    if s.val > 2 ^ 31 - 1 then some ErrCode.flowControl else none
  else if s.id = SettingMaxFrameSize then
    if s.val < 16384 ∨ s.val > 2 ^ 24 - 1 then some ErrCode.protocol else none
  else none

/-- A frame (or the preface) buffered for the wire during setup. -/
inductive WriteEvent
  | preface
  | settingsFrame (settings : List Setting)
  | windowUpdate (streamID incr : Nat)
  | priorityFrame (streamID : Nat)
deriving DecidableEq

/-- The options `newClientConn` consults during setup; `priorityIds` are
the `PriorityParams` map keys in iteration order. -/
structure SetupOptions where
  settings : List Setting
  windowSizeIncrement : Nat
  priorityIds : List Nat
deriving DecidableEq

/-- Connection fields updated from the recorded `settingVal` values. -/
structure ConnSettings where
  maxConcurrentStreams : Nat
  initialWindowSize : Nat
  maxFrameSize : Nat
  maxHeaderTableSize : Nat
  maxHeaderListSize : Nat
deriving DecidableEq

/-- `initialMaxConcurrentStreams` (x/net): used until server settings
arrive. -/
def initialMaxConcurrentStreams : Nat := 100

/-- Connectionfields before the settings are applied (`16 << 10`, spec
default 65535, protocol default header table 4096). -/
def connDefaults : ConnSettings :=
  ⟨initialMaxConcurrentStreams, 65535, 16384, 4096, 0⟩

/-- `transportDefaultConnFlow` (x/net): the default connection-level
WINDOW_UPDATE increment, 2^30. -/
def transportDefaultConnFlow : Nat := 2 ^ 30

def initialWindowSize : Nat := 65535

/-- Go's `int32(x)` reinterpretation of a uint32-valued expression. -/
def toInt32 (n : Nat) : Int :=
  if n % 2 ^ 32 < 2 ^ 31 then ((n % 2 ^ 32 : Nat) : Int)
  else ((n % 2 ^ 32 : Nat) : Int) - 2 ^ 32

inductive SettingsLoop
  | ok (vals : List Nat)
  | err (e : ErrCode)
  | panicked (id : Nat)
deriving DecidableEq

/-- The settings validation/recording loop of `newClientConn`: validate
each entry, then write its value into the 7-element `settingVal` array at
index `setting.ID` — an index ≥ 7 is a Go runtime panic
(index out of range). -/
def recordSettings (vals : List Nat) : List Setting → SettingsLoop
  | [] => SettingsLoop.ok vals
  | s :: rest =>
    match s.valid with
    | some e => SettingsLoop.err e
    | none =>
      if s.id < 7 then recordSettings (vals.set s.id s.val) rest
      else SettingsLoop.panicked s.id

/-- The `if v := settingVal[...]; v > 0` updates following the loop. -/
def applySettingVals (c : ConnSettings) (vals : List Nat) : ConnSettings :=
  let c1 := if vals.getD 1 0 > 0 then { c with maxHeaderTableSize := vals.getD 1 0 } else c
  let c2 := if vals.getD 3 0 > 0 then { c1 with maxConcurrentStreams := vals.getD 3 0 } else c1
  let c3 := if vals.getD 4 0 > 0 then { c2 with initialWindowSize := vals.getD 4 0 } else c2
  let c4 := if vals.getD 5 0 > 0 then { c3 with maxFrameSize := vals.getD 5 0 } else c3
  if vals.getD 6 0 > 0 then { c4 with maxHeaderListSize := vals.getD 6 0 } else c4

/-- `Framer.WriteWindowUpdate` (x/net framer): the frame is written only
for a legal increment (1 ≤ incr ≤ 2^31−1); otherwise the framer reports
an error (ignored by `newClientConn`) and writes nothing. -/
def writeWindowUpdate (streamID incr : Nat) : List WriteEvent :=
  if 1 ≤ incr ∧ incr ≤ 2 ^ 31 - 1 then [WriteEvent.windowUpdate streamID incr] else []

/-- The wire writes `newClientConn` buffers after the settings phase:
preface, SETTINGS, connection WINDOW_UPDATE (configured increment if
non-zero, else the default), then PRIORITY frames. -/
def setupWrites (settings : List Setting) (opt : SetupOptions) : List WriteEvent :=
  [WriteEvent.preface, WriteEvent.settingsFrame settings] ++
    (if opt.windowSizeIncrement > 0 then writeWindowUpdate 0 opt.windowSizeIncrement
     else writeWindowUpdate 0 transportDefaultConnFlow) ++
    opt.priorityIds.map WriteEvent.priorityFrame

/-- `cc.inflow.init(...)`: the initial local connection receive window —
`int32(opt.WindowSizeIncrement + initialWindowSize)` (uint32 addition,
then `int32` reinterpretation) when an increment is configured, else
`transportDefaultConnFlow + initialWindowSize`. -/
def inflowInitValue (opt : SetupOptions) : Int :=
  if opt.windowSizeIncrement > 0 then
    toInt32 (opt.windowSizeIncrement + initialWindowSize)
  else
    ((transportDefaultConnFlow + initialWindowSize : Nat) : Int)

inductive SetupOutcome
  | ok (writes : List WriteEvent) (inflowInit : Int) (conn : ConnSettings)
  | err (e : ErrCode)
  | panicked (id : Nat)
deriving DecidableEq

/-- The setup phase of `Transport.newClientConn` (part_001): choose the
SETTINGS list (the caller-supplied one after per-entry validation, or the
computed `defaults` — whose construction from `configFromTransport` is
outside the verified sources), apply recorded values to the connection,
then buffer preface + SETTINGS + WINDOW_UPDATE + PRIORITY.  Validation
errors and the recording-loop panic occur before any write is buffered
(and a fortiori before the final `bw.Flush` puts bytes on the
connection). -/
def newClientConnSetup (opt : SetupOptions) (defaults : List Setting) : SetupOutcome :=
  if opt.settings.isEmpty then
    SetupOutcome.ok (setupWrites defaults opt) (inflowInitValue opt) connDefaults
  else
    match recordSettings (List.replicate 7 0) opt.settings with
    | SettingsLoop.err e => SetupOutcome.err e
    | SettingsLoop.panicked i => SetupOutcome.panicked i
    | SettingsLoop.ok vals =>
      SetupOutcome.ok (setupWrites opt.settings opt) (inflowInitValue opt)
        (applySettingVals connDefaults vals)

/-! ### The retry loop of `Transport.roundTrip` (patch_test.go) -/

inductive AttemptResult
  | success
  | failure (replayable : Bool)

/-- The environment of one `roundTrip` call: the outcome of the attempt
at each retry index, the `mathrand.Float64()` draw used for the backoff
at each index, and whether the request context fires during that backoff
wait. -/
structure RetryEnv where
  attempt : Nat → AttemptResult
  rand : Nat → ℚ
  cancelDuringWait : Nat → Bool

inductive RetryOutcome
  | response (n : Nat)
  | failed (n : Nat)
  | ctxError (n : Nat)
deriving DecidableEq

def retryIndexOf : RetryOutcome → Nat
  | RetryOutcome.response n => n
  | RetryOutcome.failed n => n
  | RetryOutcome.ctxError n => n

/-- `time.Second * time.Duration(backoff)` with
`backoff := float64(1 << (retry-1)); backoff += backoff * (0.1 * rand)`:
the float is truncated to a whole number of seconds. -/
def backoffSeconds (n : Nat) (r : ℚ) : Int :=
  Int.floor ((2 ^ (n - 1) : ℚ) * (1 + r / 10))

/-- The `for retry := 0; ; retry++` loop of `Transport.roundTrip`: an
attempt that fails with a transport error is retried when
`shouldRetryRequest` accepts it and `retry <= 6`; the first retry is
immediate, later ones wait `backoffSeconds`; a context cancellation
during the wait returns the context error.  The second component records
every completed backoff wait as (retry index, whole seconds).  The fuel
is a termination device; `roundTripModel` supplies 8, which
`retryIndexOf_le` shows is never exhausted. -/
def roundTripLoop (env : RetryEnv) : Nat → Nat → RetryOutcome × List (Nat × Int)
  | 0, n => (RetryOutcome.failed n, [])
  | fuel + 1, n =>
    match env.attempt n with
    | AttemptResult.success => (RetryOutcome.response n, [])
    | AttemptResult.failure rep =>
      if n ≤ 6 ∧ rep then
        if n = 0 then roundTripLoop env fuel 1
        else if env.cancelDuringWait n then (RetryOutcome.ctxError n, [])
        else
          let r := roundTripLoop env fuel (n + 1)
          (r.1, (n, backoffSeconds n (env.rand n)) :: r.2)
      else (RetryOutcome.failed n, [])

def roundTripModel (env : RetryEnv) : RetryOutcome × List (Nat × Int) :=
  roundTripLoop env 8 0

/-! ### The response/abort race of `ClientConn.RoundTrip` (patch_test.go) -/

/-- Which of the four channels of the waiting caller's `select` are ready
when the runtime resolves it. -/
structure WaitChannels where
  respHeaderRecv : Bool
  abort : Bool
  ctxDone : Bool
  reqCancel : Bool
deriving DecidableEq

inductive SelectBranch
  | respHeaderRecv
  | abort
  | ctxDone
  | reqCancel
deriving DecidableEq

inductive RoundTripResult
  | response
  | abortError
  | ctxCancelError
  | requestCanceledError
deriving DecidableEq

/-- One resolution of the `select` in `ClientConn.RoundTrip`: the Go
runtime picks uniformly among the ready cases (`choice` is the pick;
`none` means the chosen branch was not ready, which cannot happen).  The
`abort` branch re-checks `respHeaderRecv` in a nested non-blocking
select and honors the response when it has already arrived
(golang.org/issue/49645); the `ctxDone` and `reqCancel` branches abort
the stream and return the cancellation error. -/
def roundTripSelect (s : WaitChannels) (choice : SelectBranch) : Option RoundTripResult :=
  match choice with
  | SelectBranch.respHeaderRecv =>
    if s.respHeaderRecv then some RoundTripResult.response else none
  | SelectBranch.abort =>
    if s.abort then
      (if s.respHeaderRecv then some RoundTripResult.response
       else some RoundTripResult.abortError)
    else none
  | SelectBranch.ctxDone =>
    if s.ctxDone then some RoundTripResult.ctxCancelError else none
  | SelectBranch.reqCancel =>
    if s.reqCancel then some RoundTripResult.requestCanceledError else none

/-! ### Supporting lemmas -/

theorem getHeaderValue_eq_find (l : List keyValues) (k : String) :
    getHeaderValue l k =
      match l.find? (fun kv => kv.key = k) with
      | none => ""
      | some kv =>
        match kv.values with
        | [] => ""
        | v :: _ => v := by
  induction l with
  | nil => rfl
  | cons kv rest ih =>
    by_cases h : kv.key = k
    · simp [getHeaderValue, h, List.find?]
    · simp only [getHeaderValue, if_neg h, ih, List.find?]
      rw [show (decide (kv.key = k)) = false by simp [h]]

theorem find?_key_perm {l₁ l₂ : List keyValues} (k : String)
    (hperm : l₁.Perm l₂)
    (hdist : l₁.Pairwise fun a b => a.key ≠ b.key) :
    l₁.find? (fun kv => kv.key = k) = l₂.find? (fun kv => kv.key = k) := by
  rcases h₁ : l₁.find? (fun kv => kv.key = k) with _ | x
  · rcases h₂ : l₂.find? (fun kv => kv.key = k) with _ | y
    · rw [h₁, h₂]
    · have hy := List.find?_some h₂
      have hymem := List.mem_of_find?_eq_some h₂
      have := List.find?_eq_none.mp h₁ y (hperm.mem_iff.mpr hymem)
      simp_all
  · have hx := List.find?_some h₁
    have hxmem := List.mem_of_find?_eq_some h₁
    rcases h₂ : l₂.find? (fun kv => kv.key = k) with _ | y
    · have := List.find?_eq_none.mp h₂ x (hperm.mem_iff.mp hxmem)
      simp_all
    · have hy := List.find?_some h₂
      have hymem := hperm.mem_iff.mpr (List.mem_of_find?_eq_some h₂)
      by_cases hxy : x = y
      · rw [h₁, h₂, hxy]
      · exfalso
        have hsym : Symmetric fun a b : keyValues => a.key ≠ b.key :=
          fun a b hab h => hab h.symm
        have := hdist.forall hsym hxmem hymem hxy
        simp only [decide_eq_true_eq] at hx hy
        exact this (hx.trans hy.symm)

theorem getHeaderValue_perm {l₁ l₂ : List keyValues} (k : String)
    (hperm : l₁.Perm l₂)
    (hdist : l₁.Pairwise fun a b => a.key ≠ b.key) :
    getHeaderValue l₁ k = getHeaderValue l₂ k := by
  rw [getHeaderValue_eq_find, getHeaderValue_eq_find, find?_key_perm k hperm hdist]

/-- Lower-case-distinct keys are in particular distinct. -/
theorem key_distinct_of_lower_distinct {l : List keyValues}
    (h : l.Pairwise fun a b => strLower a.key ≠ strLower b.key) :
    l.Pairwise fun a b => a.key ≠ b.key := by
  refine h.imp ?_
  intro a b hab h'
  exact hab (by rw [h'])

/-! ### Lemmas for the retry loop -/

theorem retryIndexOf_le (env : RetryEnv) :
    ∀ (fuel n : Nat), retryIndexOf (roundTripLoop env fuel n).1 ≤ max 7 n := by
  intro fuel
  induction fuel with
  | zero => intro n; simp [roundTripLoop, retryIndexOf]
  | succ f ih =>
    intro n
    rcases ha : env.attempt n with _ | rep
    · simp [roundTripLoop, ha, retryIndexOf]
    · simp only [roundTripLoop, ha]
      by_cases hc : n ≤ 6 ∧ rep = true
      · rw [if_pos hc]
        by_cases h0 : n = 0
        · rw [if_pos h0]
          have := ih 1
          omega
        · rw [if_neg h0]
          by_cases hcan : env.cancelDuringWait n = true
          · rw [if_pos hcan]; simp [retryIndexOf]
          · rw [if_neg hcan]
            have := ih (n + 1)
            simp only [retryIndexOf] at *
            omega
      · rw [if_neg hc]; simp [retryIndexOf]

theorem ctxError_cancel (env : RetryEnv) :
    ∀ (fuel n m : Nat), (roundTripLoop env fuel n).1 = RetryOutcome.ctxError m →
      env.cancelDuringWait m = true := by
  intro fuel
  induction fuel with
  | zero => intro n m h; simp [roundTripLoop] at h
  | succ f ih =>
    intro n m h
    rcases ha : env.attempt n with _ | rep
    · simp [roundTripLoop, ha] at h
    · simp only [roundTripLoop, ha] at h
      by_cases hc : n ≤ 6 ∧ rep = true
      · rw [if_pos hc] at h
        by_cases h0 : n = 0
        · rw [if_pos h0] at h
          exact ih 1 m h
        · rw [if_neg h0] at h
          by_cases hcan : env.cancelDuringWait n = true
          · rw [if_pos hcan] at h
            simp only [RetryOutcome.ctxError.injEq] at h
            rw [← h]
            exact hcan
          · rw [if_neg hcan] at h
            exact ih (n + 1) m h
      · rw [if_neg hc] at h; simp at h

theorem backoffSeconds_bounds (n : Nat) (r : ℚ) (h0 : 0 ≤ r) (h1 : r < 1) :
    (2 ^ (n - 1) : ℤ) ≤ backoffSeconds n r ∧
      (backoffSeconds n r : ℚ) ≤ (2 ^ (n - 1) : ℚ) * 11 / 10 := by
  have hpow : (0 : ℚ) < 2 ^ (n - 1) := by positivity
  constructor
  · rw [backoffSeconds, Int.le_floor]
    push_cast
    nlinarith
  · calc (backoffSeconds n r : ℚ) ≤ (2 ^ (n - 1) : ℚ) * (1 + r / 10) :=
          Int.floor_le _
      _ ≤ (2 ^ (n - 1) : ℚ) * 11 / 10 := by nlinarith

theorem waits_bounds (env : RetryEnv)
    (hr : ∀ m, 0 ≤ env.rand m ∧ env.rand m < 1) :
    ∀ (fuel n : Nat), ∀ p ∈ (roundTripLoop env fuel n).2,
      1 ≤ p.1 ∧ p.1 ≤ 6 ∧ (2 ^ (p.1 - 1) : ℤ) ≤ p.2 ∧
        (p.2 : ℚ) ≤ (2 ^ (p.1 - 1) : ℚ) * 11 / 10 := by
  intro fuel
  induction fuel with
  | zero => intro n p hp; simp [roundTripLoop] at hp
  | succ f ih =>
    intro n p hp
    rcases ha : env.attempt n with _ | rep
    · simp [roundTripLoop, ha] at hp
    · simp only [roundTripLoop, ha] at hp
      by_cases hc : n ≤ 6 ∧ rep = true
      · rw [if_pos hc] at hp
        by_cases h0 : n = 0
        · rw [if_pos h0] at hp
          exact ih 1 p hp
        · rw [if_neg h0] at hp
          by_cases hcan : env.cancelDuringWait n = true
          · rw [if_pos hcan] at hp; simp at hp
          · rw [if_neg hcan] at hp
            simp only [List.mem_cons] at hp
            rcases hp with rfl | hp
            · refine ⟨by omega, hc.1, ?_⟩
              exact backoffSeconds_bounds n (env.rand n) (hr n).1 (hr n).2
            · exact ih (n + 1) p hp
      · rw [if_neg hc] at hp; simp at hp

/-! ### Arithmetic helper for the receive-window initialisation -/

theorem toInt32_small (n : Nat) (h : n < 2 ^ 31) : toInt32 n = (n : Int) := by
  have hm : n % 2 ^ 32 = n := Nat.mod_eq_of_lt (by omega)
  unfold toInt32
  rw [hm, if_pos h]

/-! ### Congruence of the emission pipeline in the header-map order -/

theorem pseudoFromOrder_congr (req req' : RequestM)
    (hm : req.method = req'.method) (hh : req.host = req'.host)
    (hp : req.path = req'.path) (hs : req.scheme = req'.scheme) :
    ∀ l, pseudoFromOrder req l = pseudoFromOrder req' l := by
  intro l
  induction l with
  | nil => rfl
  | cons p ps ih =>
    simp only [pseudoFromOrder, ih, methodOf, hm, hh, hp, hs]

theorem isNormalConnect_congr (req req' : RequestM)
    (hm : req.method = req'.method)
    (hg : getHeaderValue req.header ":protocol" = getHeaderValue req'.header ":protocol") :
    isNormalConnect req = isNormalConnect req' := by
  simp only [isNormalConnect, hm, hg]

theorem pseudoHeaders_congr (opt : OptionsM) (req req' : RequestM)
    (hm : req.method = req'.method) (hh : req.host = req'.host)
    (hp : req.path = req'.path) (hs : req.scheme = req'.scheme)
    (hg : getHeaderValue req.header ":protocol" = getHeaderValue req'.header ":protocol") :
    pseudoHeaders opt req = pseudoHeaders opt req' := by
  simp only [pseudoHeaders, pseudoFromOrder_congr req req' hm hh hp hs,
    isNormalConnect_congr req req' hm hg, methodOf, hm, hh, hp, hs]

theorem enumerateHeaders_det (opt : OptionsM) (req : RequestM) (h₂ : List keyValues)
    (hperm : req.header.Perm h₂)
    (hdist : req.header.Pairwise fun a b => strLower a.key ≠ strLower b.key)
    (trailers : String) (gz : Bool) (cl : Int) :
    enumerateHeaders opt req trailers gz cl =
      enumerateHeaders opt { req with header := h₂ } trailers gz cl := by
  have hkd := key_distinct_of_lower_distinct hdist
  have hkvs : (if opt.headerOrder ≠ [] then sortedKeyValuesBy req.header opt.headerOrder
      else sortedKeyValues req.header) =
      (if opt.headerOrder ≠ [] then sortedKeyValuesBy h₂ opt.headerOrder
      else sortedKeyValues h₂) := by
    by_cases ho : opt.headerOrder = []
    · simp only [ho, ne_eq, not_true_eq_false, if_false]
      exact sortedKeyValuesBy_det [] req.header h₂ hperm hdist
    · simp only [ne_eq, ho, not_false_eq_true, if_true]
      exact sortedKeyValuesBy_det opt.headerOrder req.header h₂ hperm hdist
  have hpseudo : pseudoHeaders opt req = pseudoHeaders opt { req with header := h₂ } :=
    pseudoHeaders_congr opt req _ rfl rfl rfl rfl
      (getHeaderValue_perm ":protocol" hperm hkd)
  simp only [enumerateHeaders] at *
  rw [hpseudo, hkvs]

theorem encodeHeaders_det {σ : Type} (wh : σ → String × String → σ) (st : σ)
    (opt : OptionsM) (peerMax : Nat) (req : RequestM) (h₂ : List keyValues)
    (trailers : String) (gz : Bool) (cl : Int)
    (hperm : req.header.Perm h₂)
    (hdist : req.header.Pairwise fun a b => strLower a.key ≠ strLower b.key) :
    encodeHeaders wh st opt peerMax req trailers gz cl =
      encodeHeaders wh st opt peerMax { req with header := h₂ } trailers gz cl := by
  have hval : validateHeaders req.header = validateHeaders h₂ := perm_all_eq _ hperm
  have henum := enumerateHeaders_det opt req h₂ hperm hdist trailers gz cl
  simp only [encodeHeaders]
  rw [← hval, ← henum]

/-! ### The pseudo-header emission asserted by the specification -/

/-- Pseudo-header emission for one `PHeaderOrder` token, as the claim
words it: a recognized token that applies to the request emits its
pseudo-header, `:path`/`:scheme` do not apply to CONNECT requests, and
unrecognized tokens are skipped. -/
def specPseudoToken (req : RequestM) (p : String) : List (String × String) :=
  if p = ":authority" then [(":authority", req.host)]
  else if p = ":method" then [(":method", methodOf req)]
  else if p = ":path" then
    (if req.method = "CONNECT" then [] else [(":path", req.path)])
  else if p = ":scheme" then
    (if req.method = "CONNECT" then [] else [(":scheme", req.scheme)])
  else []

def specPseudoOrdered (req : RequestM) : List String → List (String × String)
  | [] => []
  | p :: ps => specPseudoToken req p ++ specPseudoOrdered req ps

/-- The default pseudo-header emission as the original claim literally
states it: fixed order `:authority, :method, :path, :scheme` with
method/scheme omitted for CONNECT requests. -/
def claimPseudoDefault (req : RequestM) : List (String × String) :=
  [(":authority", req.host)] ++
    (if req.method = "CONNECT" then [] else [(":method", methodOf req)]) ++
    [(":path", req.path)] ++
    (if req.method = "CONNECT" then [] else [(":scheme", req.scheme)])

/-- The default pseudo-header emission as the amended claim states it:
`:authority` and `:method` always, `:path`/`:scheme` omitted for a
(normal) CONNECT request. -/
def specPseudoDefault (req : RequestM) : List (String × String) :=
  [(":authority", req.host), (":method", methodOf req)] ++
    (if isNormalConnect req then [] else [(":path", req.path), (":scheme", req.scheme)])

theorem pseudoFromOrder_eq_spec (req : RequestM) :
    ∀ l, pseudoFromOrder req l = specPseudoOrdered req l := by
  intro l
  induction l with
  | nil => rfl
  | cons p ps ih =>
    simp only [pseudoFromOrder, specPseudoOrdered, specPseudoToken, ih]
    by_cases hm : req.method = "CONNECT" <;> simp [hm]

/-! ### Settings-loop error lemma -/

theorem recordSettings_err :
    ∀ (l : List Setting) (vals : List Nat),
      (∀ s ∈ l, s.id < 7) → (∃ s ∈ l, s.valid ≠ none) →
      ∃ e, recordSettings vals l = SettingsLoop.err e := by
  intro l
  induction l with
  | nil =>
    intro vals _ hex
    rcases hex with ⟨s, hs, _⟩
    exact absurd hs (by simp)
  | cons s rest ih =>
    intro vals hid hex
    rcases hv : s.valid with _ | e
    · simp only [recordSettings, hv]
      rw [if_pos (hid s (by simp))]
      apply ih
      · intro t ht; exact hid t (by simp [ht])
      · rcases hex with ⟨t, ht, htv⟩
        rcases List.mem_cons.mp ht with rfl | ht'
        · exact absurd hv htv
        · exact ⟨t, ht', htv⟩
    · exact ⟨e, by simp [recordSettings, hv]⟩

/-- The writes and window value a successful setup carries. -/
theorem setup_ok_inv (opt : SetupOptions) (defaults : List Setting)
    (w : List WriteEvent) (f : Int) (c : ConnSettings)
    (hok : newClientConnSetup opt defaults = SetupOutcome.ok w f c) :
    (w = setupWrites defaults opt ∨ w = setupWrites opt.settings opt) ∧
      f = inflowInitValue opt := by
  unfold newClientConnSetup at hok
  by_cases he : opt.settings.isEmpty
  · rw [if_pos he] at hok
    rcases hok with ⟨rfl, rfl, rfl⟩
    exact ⟨Or.inl rfl, rfl⟩
  · rw [if_neg he] at hok
    rcases hr : recordSettings (List.replicate 7 0) opt.settings with vals | e | i <;>
      rw [hr] at hok
    · rcases hok with ⟨rfl, rfl, rfl⟩
      exact ⟨Or.inr rfl, rfl⟩
    · exact absurd hok (by simp)
    · exact absurd hok (by simp)

theorem backoffSeconds_zero (n : Nat) : backoffSeconds n 0 = 2 ^ (n - 1) := by
  unfold backoffSeconds
  rw [show ((2 : ℚ) ^ (n - 1) * (1 + 0 / 10)) = (((2 ^ (n - 1) : ℤ) : ℚ)) by
    push_cast; ring]
  exact Int.floor_intCast _

/-! ## The claims -/

/-- C1 (amended): for every request-header map whose names remain
pairwise distinct after lower-casing, the sorted key/value sequence that
drives emission is a permutation of the map, ordered by each name's rank
in `HeaderOrder` (rank looked up after lower-casing), every name absent
from the list after all ranked names, ties broken lexicographically by
name; when `HeaderOrder` is empty, ordered lexicographically by name
(the `o = []` instance of the same statement).  The distinctness proviso
is forced by `c1_counterexample`: two names that collide after
lower-casing share a rank and their tie is kept in map-iteration order,
not broken lexicographically. -/
theorem c1_sorted_by_rank (o : List String) (h : List keyValues)
    (hdist : h.Pairwise fun a b => strLower a.key ≠ strLower b.key) :
    ((sortedKeyValuesBy h o).Perm h ∧
      (sortedKeyValuesBy h o).Pairwise fun a b => specHeaderRelB o a b = true) ∧
    ((sortedKeyValues h).Perm h ∧
      (sortedKeyValues h).Pairwise fun a b => specHeaderRelB [] a b = true) := by
  have main : ∀ o' : List String,
      (sortedKeyValuesBy h o').Perm h ∧
        (sortedKeyValuesBy h o').Pairwise fun a b => specHeaderRelB o' a b = true := by
    intro o'
    refine ⟨goSort_perm _ h, ?_⟩
    have hp := goSort_pairwise (headerSorterLess o') (headerSorterLess_trans o')
      (headerSorterLess_asym o') h
    have hsym : Symmetric fun a b : keyValues => strLower a.key ≠ strLower b.key :=
      fun a b hab hx => hab hx.symm
    have hd' : (sortedKeyValuesBy h o').Pairwise
        fun a b => strLower a.key ≠ strLower b.key :=
      ((goSort_perm (headerSorterLess o') h).pairwise_iff
        (fun hab => hsym hab)).mpr hdist
    exact (hp.and hd').imp fun hab => specRel_of_notLess o' _ _ hab.2 hab.1
  exact ⟨main o, main []⟩

/-- C1 counterexample: with `HeaderOrder = ["b"]` and header names `"b"`
and `"B"` (distinct keys, equal after lower-casing, hence equal rank 0),
the emitted order keeps the map-iteration order `["b", "B"]`, which is
not the lexicographic tie-break the claim asserts (`"B" < "b"`). -/
theorem c1_counterexample :
    sortedKeyValuesBy [⟨"b", ["1"]⟩, ⟨"B", ["2"]⟩] ["b"] =
      [⟨"b", ["1"]⟩, ⟨"B", ["2"]⟩] ∧
    ¬ ((sortedKeyValuesBy [⟨"b", ["1"]⟩, ⟨"B", ["2"]⟩] ["b"]).Pairwise
        fun a b => specHeaderRelB ["b"] a b = true) := by
  exact ⟨by decide, by decide⟩

theorem c1_witness :
    (([⟨"b", ["1"]⟩, ⟨"a", ["2"]⟩] : List keyValues).Pairwise
      fun a b => strLower a.key ≠ strLower b.key) ∧
    (((sortedKeyValuesBy [⟨"b", ["1"]⟩, ⟨"a", ["2"]⟩] ["b"]).Perm
        [⟨"b", ["1"]⟩, ⟨"a", ["2"]⟩] ∧
      (sortedKeyValuesBy [⟨"b", ["1"]⟩, ⟨"a", ["2"]⟩] ["b"]).Pairwise
        fun a b => specHeaderRelB ["b"] a b = true) ∧
    ((sortedKeyValues [⟨"b", ["1"]⟩, ⟨"a", ["2"]⟩]).Perm
        [⟨"b", ["1"]⟩, ⟨"a", ["2"]⟩] ∧
      (sortedKeyValues [⟨"b", ["1"]⟩, ⟨"a", ["2"]⟩]).Pairwise
        fun a b => specHeaderRelB [] a b = true)) :=
  ⟨by decide, c1_sorted_by_rank ["b"] [⟨"b", ["1"]⟩, ⟨"a", ["2"]⟩] (by decide)⟩

/-- C2 (amended): two runs of header encoding over the same header names
and values and the same configuration produce the identical wire field
sequence (and identical HPACK encoder state) regardless of the iteration
order of the Go header map — provided no two header names coincide after
lower-casing.  The proviso is forced by `c2_counterexample`. -/
theorem c2_wire_deterministic {σ : Type} (wh : σ → String × String → σ) (st : σ)
    (opt : OptionsM) (peerMax : Nat) (req : RequestM) (h₂ : List keyValues)
    (trailers : String) (gz : Bool) (cl : Int)
    (hperm : req.header.Perm h₂)
    (hdist : req.header.Pairwise fun a b => strLower a.key ≠ strLower b.key) :
    encodeHeaders wh st opt peerMax req trailers gz cl =
      encodeHeaders wh st opt peerMax { req with header := h₂ } trailers gz cl :=
  encodeHeaders_det wh st opt peerMax req h₂ trailers gz cl hperm hdist

/-- C2 counterexample: the same header names/values (`"b" ↦ 1`,
`"B" ↦ 2`) under `HeaderOrder = ["b"]`, iterated in the two possible map
orders, emit different wire sequences (`b: 1, b: 2` vs `b: 2, b: 1`). -/
theorem c2_counterexample :
    ([⟨"b", ["1"]⟩, ⟨"B", ["2"]⟩] : List keyValues).Perm
      [⟨"B", ["2"]⟩, ⟨"b", ["1"]⟩] ∧
    (encodeHeaders (fun (n : Nat) _ => n + 1) 0 ⟨["b"], []⟩ 1000000
        ⟨"GET", "example.com", "/", "https", [⟨"b", ["1"]⟩, ⟨"B", ["2"]⟩]⟩ "" false 0).1 =
      Except.ok [(":authority", "example.com"), (":method", "GET"), (":path", "/"),
        (":scheme", "https"), ("b", "1"), ("b", "2"),
        ("user-agent", defaultUserAgent)] ∧
    (encodeHeaders (fun (n : Nat) _ => n + 1) 0 ⟨["b"], []⟩ 1000000
        ⟨"GET", "example.com", "/", "https", [⟨"B", ["2"]⟩, ⟨"b", ["1"]⟩]⟩ "" false 0).1 =
      Except.ok [(":authority", "example.com"), (":method", "GET"), (":path", "/"),
        (":scheme", "https"), ("b", "2"), ("b", "1"),
        ("user-agent", defaultUserAgent)] ∧
    ([(":authority", "example.com"), (":method", "GET"), (":path", "/"),
        (":scheme", "https"), ("b", "1"), ("b", "2"),
        ("user-agent", defaultUserAgent)] : List (String × String)) ≠
      [(":authority", "example.com"), (":method", "GET"), (":path", "/"),
        (":scheme", "https"), ("b", "2"), ("b", "1"),
        ("user-agent", defaultUserAgent)] :=
  ⟨by decide, by rfl, by rfl, by decide⟩

theorem c2_witness :
    (([⟨"b", ["1"]⟩, ⟨"a", ["2"]⟩] : List keyValues).Pairwise
      fun a b => strLower a.key ≠ strLower b.key) ∧
    encodeHeaders (fun (n : Nat) _ => n + 1) 0 ⟨["b"], []⟩ 1000000
        ⟨"GET", "example.com", "/", "https", [⟨"b", ["1"]⟩, ⟨"a", ["2"]⟩]⟩ "" false 0 =
      encodeHeaders (fun (n : Nat) _ => n + 1) 0 ⟨["b"], []⟩ 1000000
        ⟨"GET", "example.com", "/", "https",
          (⟨"GET", "example.com", "/", "https",
            [⟨"b", ["1"]⟩, ⟨"a", ["2"]⟩]⟩ : RequestM).header⟩ "" false 0 :=
  ⟨by decide,
    c2_wire_deterministic (fun (n : Nat) _ => n + 1) 0 ⟨["b"], []⟩ 1000000
      ⟨"GET", "example.com", "/", "https", [⟨"b", ["1"]⟩, ⟨"a", ["2"]⟩]⟩
      [⟨"b", ["1"]⟩, ⟨"a", ["2"]⟩] "" false 0 (List.Perm.refl _) (by decide)⟩

/-- C3 (amended): when `PHeaderOrder` is set, the pseudo-header section
iterates it and emits exactly the recognized tokens `:authority`,
`:method`, `:path`, `:scheme` that apply to the request — `:path` and
`:scheme` omitted for CONNECT requests — skipping unrecognized tokens;
when it is unset, the fixed order `:authority, :method, :path, :scheme`
is emitted, with `:path`/`:scheme` (not `:method`/`:scheme`, see
`c3_counterexample`) omitted for a normal CONNECT request. -/
theorem c3_pseudo_header_emission (opt : OptionsM) (req : RequestM) :
    pseudoHeaders opt req =
      if opt.pheaderOrder ≠ [] then specPseudoOrdered req opt.pheaderOrder
      else specPseudoDefault req := by
  unfold pseudoHeaders specPseudoDefault
  by_cases hp : opt.pheaderOrder = []
  · simp [hp]
  · simp [hp, pseudoFromOrder_eq_spec]

/-- C3 counterexample: for a CONNECT request with `PHeaderOrder` unset
the code emits `:authority` followed by `:method` (omitting `:path` and
`:scheme`), while the claim's "method/scheme omitted for CONNECT" would
emit `:authority` followed by `:path`. -/
theorem c3_counterexample :
    pseudoHeaders ⟨[], []⟩ ⟨"CONNECT", "example.com:443", "", "https", []⟩ =
      [(":authority", "example.com:443"), (":method", "CONNECT")] ∧
    claimPseudoDefault ⟨"CONNECT", "example.com:443", "", "https", []⟩ =
      [(":authority", "example.com:443"), (":path", "")] ∧
    pseudoHeaders ⟨[], []⟩ ⟨"CONNECT", "example.com:443", "", "https", []⟩ ≠
      claimPseudoDefault ⟨"CONNECT", "example.com:443", "", "https", []⟩ :=
  ⟨by decide, by decide, by decide⟩

/-- C4 (amended): every `Cookie` header value is split on `;` into one
wire field per piece, with ALL leading spaces (not one space, see
`c4_counterexample`) trimmed from each piece after a split and a final
empty piece dropped; in particular the request with single header
`Cookie: a=1; b=2` and no configured order produces exactly the two
cookie wire fields `cookie: a=1` then `cookie: b=2`, in that order. -/
theorem c4_cookie_split :
    (∀ s : String, splitCookieValue s = (specCookieSplit s.toList).map String.mk) ∧
    splitCookieValue "a=1; b=2" = ["a=1", "b=2"] ∧
    (encodeHeaders (fun (n : Nat) _ => n + 1) 0 ⟨[], []⟩ 1000000
        ⟨"GET", "example.com", "/", "https", [⟨"Cookie", ["a=1; b=2"]⟩]⟩ "" false 0).1 =
      Except.ok [(":authority", "example.com"), (":method", "GET"), (":path", "/"),
        (":scheme", "https"), ("cookie", "a=1"), ("cookie", "b=2"),
        ("user-agent", defaultUserAgent)] :=
  ⟨fun s => by rw [splitCookieValue, splitCookieList_eq_spec], by decide, by rfl⟩

/-- C4 counterexample: on `a=1;  b=2` (two spaces after the semicolon)
the code trims both spaces and yields `b=2`, while the claim's "one
leading space per split" yields ` b=2`. -/
theorem c4_counterexample :
    splitCookieValue "a=1;  b=2" = ["a=1", "b=2"] ∧
    (claimCookieSplitOne "a=1;  b=2".toList).map String.mk = ["a=1", " b=2"] ∧
    (["a=1", "b=2"] : List String) ≠ ["a=1", " b=2"] :=
  ⟨by decide, by decide, by decide⟩

/-- C5: every user-supplied SETTINGS entry is validated per field
(ENABLE_PUSH ∈ {0,1}, INITIAL_WINDOW_SIZE ≤ 2^31−1, MAX_FRAME_SIZE ∈
[16384, 2^24−1]); a list containing an invalid entry makes connection
construction return an error, before any bytes (preface, SETTINGS frame,
…) are buffered for the connection — the error outcome carries no
writes; `{ENABLE_PUSH: 2}` and `{MAX_FRAME_SIZE: 100}` are rejected and
`{MAX_FRAME_SIZE: 16384}` is accepted.  The general clause is stated for
lists whose ids all lie below 7: a validated unknown id ≥ 7 earlier in
the list panics before validation reaches the invalid entry (that defect
is the subject of C10). -/
theorem c5_settings_validation :
    (∀ s : Setting, s.valid = none ↔
      ((s.id = SettingEnablePush → s.val = 0 ∨ s.val = 1) ∧
       (s.id = SettingInitialWindowSize → s.val ≤ 2 ^ 31 - 1) ∧
       (s.id = SettingMaxFrameSize → 16384 ≤ s.val ∧ s.val ≤ 2 ^ 24 - 1))) ∧
    (∀ (opt : SetupOptions) (defaults : List Setting),
      (∀ s ∈ opt.settings, s.id < 7) →
      (∃ s ∈ opt.settings, s.valid ≠ none) →
      ∃ e, newClientConnSetup opt defaults = SetupOutcome.err e) ∧
    newClientConnSetup ⟨[⟨SettingEnablePush, 2⟩], 0, []⟩ [] =
      SetupOutcome.err ErrCode.protocol ∧
    newClientConnSetup ⟨[⟨SettingMaxFrameSize, 100⟩], 0, []⟩ [] =
      SetupOutcome.err ErrCode.protocol ∧
    newClientConnSetup ⟨[⟨SettingMaxFrameSize, 16384⟩], 0, []⟩ [] =
      SetupOutcome.ok [WriteEvent.preface,
        WriteEvent.settingsFrame [⟨SettingMaxFrameSize, 16384⟩],
        WriteEvent.windowUpdate 0 transportDefaultConnFlow]
        1073807359 connDefaults := by
  refine ⟨?_, ?_, by decide, by decide, by decide⟩
  · intro s
    unfold Setting.valid SettingEnablePush SettingInitialWindowSize SettingMaxFrameSize
    split_ifs with h1 h2 h3 h4 h5 h6 <;> simp_all <;> omega
  · intro opt defaults hids hex
    have hne : ¬ opt.settings.isEmpty = true := by
      rcases hex with ⟨s, hs, _⟩
      cases hset : opt.settings with
      | nil => rw [hset] at hs; exact absurd hs (by simp)
      | cons a l => simp
    rcases recordSettings_err opt.settings (List.replicate 7 0) hids hex with ⟨e, he⟩
    refine ⟨e, ?_⟩
    unfold newClientConnSetup
    rw [if_neg hne, he]

theorem c5_witness :
    (∀ s ∈ ([⟨SettingEnablePush, 2⟩] : List Setting), s.id < 7) ∧
    (∃ s ∈ ([⟨SettingEnablePush, 2⟩] : List Setting), s.valid ≠ none) ∧
    ∃ e, newClientConnSetup ⟨[⟨SettingEnablePush, 2⟩], 0, []⟩ [] =
      SetupOutcome.err e :=
  ⟨by decide, by decide,
    c5_settings_validation.2.1 ⟨[⟨SettingEnablePush, 2⟩], 0, []⟩ []
      (by decide) (by decide)⟩

/-- C6: a request whose enumerated header fields sum — name bytes plus
value bytes plus the 32-byte HPACK per-field overhead, computed in the
dry-run pass — to more than the peer-advertised max header list size
fails with the distinct error `errRequestHeaderListSize` and leaves the
HPACK encoder state untouched, so any subsequent request on the same
connection encodes exactly as if the failed request had never been
attempted. -/
theorem c6_header_list_size {σ : Type} (wh : σ → String × String → σ) (st : σ)
    (opt : OptionsM) (peerMax : Nat) (req : RequestM) (trailers : String)
    (gz : Bool) (cl : Int)
    (hval : validateHeaders req.header = true)
    (hover : ((enumerateHeaders opt req trailers gz cl).map headerFieldSize).sum
      > peerMax) :
    encodeHeaders wh st opt peerMax req trailers gz cl =
      (Except.error EncodeError.requestHeaderListSize, st) ∧
    ∀ (opt₂ : OptionsM) (peerMax₂ : Nat) (req₂ : RequestM) (t₂ : String)
      (g₂ : Bool) (c₂ : Int),
      encodeHeaders wh (encodeHeaders wh st opt peerMax req trailers gz cl).2
          opt₂ peerMax₂ req₂ t₂ g₂ c₂ =
        encodeHeaders wh st opt₂ peerMax₂ req₂ t₂ g₂ c₂ := by
  have h1 : encodeHeaders wh st opt peerMax req trailers gz cl =
      (Except.error EncodeError.requestHeaderListSize, st) := by
    unfold encodeHeaders
    rw [if_neg (by simp [hval]), if_pos hover]
  refine ⟨h1, ?_⟩
  intro opt₂ peerMax₂ req₂ t₂ g₂ c₂
  rw [h1]

theorem c6_witness :
    validateHeaders (RequestM.header ⟨"GET", "example.com", "/", "https", []⟩) = true ∧
    ((enumerateHeaders ⟨[], []⟩ ⟨"GET", "example.com", "/", "https", []⟩ "" false 0).map
        headerFieldSize).sum > 10 ∧
    encodeHeaders (fun (n : Nat) _ => n + 1) 0 ⟨[], []⟩ 10
        ⟨"GET", "example.com", "/", "https", []⟩ "" false 0 =
      (Except.error EncodeError.requestHeaderListSize, 0) :=
  ⟨by decide, by decide,
    (c6_header_list_size (fun (n : Nat) _ => n + 1) 0 ⟨[], []⟩ 10
      ⟨"GET", "example.com", "/", "https", []⟩ "" false 0
      (by decide) (by decide)).1⟩

/-- C7 (amended): when the response-received signal is set, the waiting
caller returns the response whenever its `select` takes the
`respHeaderRecv` branch or the `abort` branch (the nested non-blocking
select honors the already-arrived response); but a simultaneous
cancellation can still win the race through the `ctx.Done`/`req.Cancel`
branches, so the original "never a cancellation error" fails
(`c7_counterexample`). -/
theorem c7_response_race (s : WaitChannels) (choice : SelectBranch)
    (hresp : s.respHeaderRecv = true)
    (hch : choice = SelectBranch.respHeaderRecv ∨
      (choice = SelectBranch.abort ∧ s.abort = true)) :
    roundTripSelect s choice = some RoundTripResult.response := by
  rcases hch with rfl | ⟨rfl, hab⟩
  · simp [roundTripSelect, hresp]
  · simp [roundTripSelect, hresp, hab]

/-- C7 counterexample: with the response received, the stream aborted and
the context cancelled all observable at once (exactly the claimed race),
the runtime may select the `ctx.Done` branch, and `RoundTrip` then
returns the cancellation error, not the response. -/
theorem c7_counterexample :
    roundTripSelect ⟨true, true, true, false⟩ SelectBranch.ctxDone =
      some RoundTripResult.ctxCancelError ∧
    some RoundTripResult.ctxCancelError ≠ some RoundTripResult.response :=
  ⟨by decide, by decide⟩

theorem c7_witness :
    (WaitChannels.respHeaderRecv ⟨true, true, true, false⟩ = true) ∧
    roundTripSelect ⟨true, true, true, false⟩ SelectBranch.abort =
      some RoundTripResult.response :=
  ⟨by decide,
    c7_response_race ⟨true, true, true, false⟩ SelectBranch.abort (by decide)
      (Or.inr ⟨rfl, by decide⟩)⟩

/-- C8 (amended): `Transport.roundTrip` retries a replayable failed
attempt at retry index `i` iff `i ≤ 6`, so at most 7 retries (8 attempts)
are performed — not 6 as originally claimed (`c8_counterexample`); the
first retry is immediate (no wait is ever recorded for index 0); every
backoff wait at index `i` satisfies `1 ≤ i ≤ 6` and lasts
`⌊2^(i−1)·(1 + r/10)⌋` whole seconds for the random draw `r ∈ [0, 1)` —
between `2^(i−1)` and `2^(i−1)·11/10` seconds, i.e. within +10% of
`2^(i−1)`; and a context cancellation during a wait at index `i` aborts
immediately with the context error (it occurs only when the
cancellation flag for `i` is set). -/
theorem c8_retry_policy (env : RetryEnv)
    (hr : ∀ m, 0 ≤ env.rand m ∧ env.rand m < 1) :
    retryIndexOf (roundTripModel env).1 ≤ 7 ∧
    (∀ p ∈ (roundTripModel env).2, 1 ≤ p.1 ∧ p.1 ≤ 6 ∧
      (2 ^ (p.1 - 1) : ℤ) ≤ p.2 ∧ (p.2 : ℚ) ≤ (2 ^ (p.1 - 1) : ℚ) * 11 / 10) ∧
    (∀ m, (roundTripModel env).1 = RetryOutcome.ctxError m →
      env.cancelDuringWait m = true) := by
  refine ⟨?_, waits_bounds env hr 8 0, fun m => ctxError_cancel env 8 0 m⟩
  have := retryIndexOf_le env 8 0
  simpa using this

/-- C8 counterexample: seven consecutive replayable failures followed by
a success — the loop performs 7 retries (more than the claimed bound of
6) and returns the 8th attempt's response, after backoff waits of
1, 2, 4, 8, 16 and 32 seconds. -/
theorem c8_counterexample :
    (roundTripModel ⟨fun n => if n ≤ 6 then AttemptResult.failure true
        else AttemptResult.success, fun _ => 0, fun _ => false⟩).1 =
      RetryOutcome.response 7 ∧
    (roundTripModel ⟨fun n => if n ≤ 6 then AttemptResult.failure true
        else AttemptResult.success, fun _ => 0, fun _ => false⟩).2 =
      [(1, 1), (2, 2), (3, 4), (4, 8), (5, 16), (6, 32)] ∧
    7 > 6 := by
  refine ⟨by decide, ?_, by decide⟩
  norm_num [roundTripModel, roundTripLoop, backoffSeconds_zero]

theorem c8_witness :
    (∀ m, 0 ≤ (fun (_ : Nat) => (0 : ℚ)) m ∧ (fun (_ : Nat) => (0 : ℚ)) m < 1) ∧
    (retryIndexOf (roundTripModel ⟨fun n => if n ≤ 6 then
        AttemptResult.failure true else AttemptResult.success,
        fun _ => 0, fun _ => false⟩).1 ≤ 7 ∧
    (∀ p ∈ (roundTripModel ⟨fun n => if n ≤ 6 then
        AttemptResult.failure true else AttemptResult.success,
        fun _ => 0, fun _ => false⟩).2, 1 ≤ p.1 ∧ p.1 ≤ 6 ∧
      (2 ^ (p.1 - 1) : ℤ) ≤ p.2 ∧ (p.2 : ℚ) ≤ (2 ^ (p.1 - 1) : ℚ) * 11 / 10) ∧
    (∀ m, (roundTripModel ⟨fun n => if n ≤ 6 then
        AttemptResult.failure true else AttemptResult.success,
        fun _ => 0, fun _ => false⟩).1 = RetryOutcome.ctxError m →
      (fun (_ : Nat) => false) m = true)) :=
  ⟨fun m => ⟨le_refl 0, by norm_num⟩,
    c8_retry_policy ⟨fun n => if n ≤ 6 then AttemptResult.failure true
      else AttemptResult.success, fun _ => 0, fun _ => false⟩
      (fun m => ⟨le_refl 0, by norm_num⟩)⟩

/-- C9 (amended): during setup, a non-zero `WindowSizeIncrement` whose
sum with the protocol-default 65535 fits in a signed 32-bit value makes
`newClientConn` write a connection-level WINDOW_UPDATE carrying exactly
that increment and initialize the local connection receive window to
increment + 65535 (additive to the default window); with a zero
increment, the default 2^30 is used for both.  For larger increments the
sum is truncated to (negative) signed 32-bit and, beyond 2^31−1, the
framer refuses to write the WINDOW_UPDATE at all (`c9_counterexample`). -/
theorem c9_window_update (opt : SetupOptions) (defaults : List Setting)
    (w : List WriteEvent) (f : Int) (c : ConnSettings)
    (hok : newClientConnSetup opt defaults = SetupOutcome.ok w f c) :
    (opt.windowSizeIncrement ≠ 0 →
      opt.windowSizeIncrement + initialWindowSize ≤ 2 ^ 31 - 1 →
      WriteEvent.windowUpdate 0 opt.windowSizeIncrement ∈ w ∧
        f = ((opt.windowSizeIncrement + initialWindowSize : Nat) : Int)) ∧
    (opt.windowSizeIncrement = 0 →
      WriteEvent.windowUpdate 0 transportDefaultConnFlow ∈ w ∧
        f = ((transportDefaultConnFlow + initialWindowSize : Nat) : Int)) := by
  obtain ⟨hw, hf⟩ := setup_ok_inv opt defaults w f c hok
  constructor
  · intro hnz hle
    have hiw : initialWindowSize = 65535 := rfl
    have hemit : (if opt.windowSizeIncrement > 0 then
        writeWindowUpdate 0 opt.windowSizeIncrement
        else writeWindowUpdate 0 transportDefaultConnFlow) =
        [WriteEvent.windowUpdate 0 opt.windowSizeIncrement] := by
      rw [if_pos (by omega)]
      unfold writeWindowUpdate
      rw [if_pos ⟨by omega, by rw [hiw] at hle; omega⟩]
    constructor
    · rcases hw with rfl | rfl <;>
        · unfold setupWrites
          rw [hemit]
          simp
    · rw [hf]
      unfold inflowInitValue
      rw [if_pos (by omega)]
      exact toInt32_small _ (by rw [hiw] at hle ⊢; omega)
  · intro hz
    have hemit : (if opt.windowSizeIncrement > 0 then
        writeWindowUpdate 0 opt.windowSizeIncrement
        else writeWindowUpdate 0 transportDefaultConnFlow) =
        [WriteEvent.windowUpdate 0 transportDefaultConnFlow] := by
      rw [if_neg (by omega)]
      unfold writeWindowUpdate transportDefaultConnFlow
      rw [if_pos ⟨by norm_num, by norm_num⟩]
    constructor
    · rcases hw with rfl | rfl <;>
        · unfold setupWrites
          rw [hemit]
          simp
    · rw [hf]
      unfold inflowInitValue
      rw [if_neg (by omega)]

/-- C9 counterexample: with the legal increment 2^31−1 the WINDOW_UPDATE
does carry the increment, but the receive window is initialized to the
signed-32-bit wrap −2147418114, not 2^31−1+65535; with increment 2^31 the
framer rejects the illegal value and no WINDOW_UPDATE is written at
all. -/
theorem c9_counterexample :
    newClientConnSetup ⟨[], 2 ^ 31 - 1, []⟩ [] =
      SetupOutcome.ok [WriteEvent.preface, WriteEvent.settingsFrame [],
        WriteEvent.windowUpdate 0 (2 ^ 31 - 1)] (-2147418114) connDefaults ∧
    (-2147418114 : Int) ≠ ((2 ^ 31 - 1 + 65535 : Nat) : Int) ∧
    newClientConnSetup ⟨[], 2 ^ 31, []⟩ [] =
      SetupOutcome.ok [WriteEvent.preface, WriteEvent.settingsFrame []]
        (-2147418113) connDefaults ∧
    (WriteEvent.windowUpdate 0 (2 ^ 31) ∉
      [WriteEvent.preface, WriteEvent.settingsFrame ([] : List Setting)]) :=
  ⟨by decide, by decide, by decide, by decide⟩

theorem c9_witness :
    newClientConnSetup ⟨[], 1000, []⟩ [] =
      SetupOutcome.ok [WriteEvent.preface, WriteEvent.settingsFrame [],
        WriteEvent.windowUpdate 0 1000] 66535 connDefaults ∧
    (WriteEvent.windowUpdate 0 1000 ∈
      [WriteEvent.preface, WriteEvent.settingsFrame ([] : List Setting),
        WriteEvent.windowUpdate 0 1000] ∧
      (66535 : Int) = ((1000 + initialWindowSize : Nat) : Int)) :=
  ⟨by decide,
    (c9_window_update ⟨[], 1000, []⟩ []
      [WriteEvent.preface, WriteEvent.settingsFrame [], WriteEvent.windowUpdate 0 1000]
      66535 connDefaults (by decide)).1 (by decide) (by decide)⟩

/-- C10: the settings-recording loop writes `settingVal[setting.ID]`
into a 7-element array, but `Setting.Valid` accepts unknown ids, so the
validated list `[{ID: 7, Val: 1}]` drives the index out of range and
construction panics — refuting the claimed in-bounds/no-panic safety
property (the code is the defect: validation was clearly meant to make
construction safe). -/
theorem c10_settings_array_panic :
    (∀ s ∈ ([⟨7, 1⟩] : List Setting), s.valid = none) ∧
    newClientConnSetup ⟨[⟨7, 1⟩], 0, []⟩ [] = SetupOutcome.panicked 7 ∧
    ∀ (w : List WriteEvent) (f : Int) (c : ConnSettings),
      newClientConnSetup ⟨[⟨7, 1⟩], 0, []⟩ [] ≠ SetupOutcome.ok w f c := by
  refine ⟨by decide, by decide, ?_⟩
  intro w f c h
  rw [show newClientConnSetup ⟨[⟨7, 1⟩], 0, []⟩ [] = SetupOutcome.panicked 7
    from by decide] at h
  exact absurd h (by simp)

end SkiH2
